import Mathlib

/-!
Verification of the secrethub-cli template core.

Strings are modelled as `List Char`.  The template package
(`internals/tpl/template.go`) is embedded directly: `splitFirst` models
`strings.SplitN(raw, sep, 2)` (returning the text before and after the first
occurrence of `sep`, or `none` when `sep` does not occur), `trimSpaces` models
`strings.Trim(s, " ")`, and `parse` is the recursive node parser, made total
with an explicit fuel argument (`Parse` supplies fuel `raw.length + 1`, which
is - provably - always sufficient when the start delimiter is non-empty).

The run/env logic (`run.go`) is not part of the provided sources, only its
tests are; the definitions for it further below are modelled from the spec and
are marked as such in their doc comments.
-/

/-- The single-quote character, written via `Char.ofNat` (as are the other
delimiter characters below) to keep quote and brace characters out of
literals. -/
def squote : Char := Char.ofNat 39

/-- The double-quote character. -/
def dquote : Char := Char.ofNat 34

/-- The opening-brace character. -/
def lbrace : Char := Char.ofNat 123

/-- The closing-brace character. -/
def rbrace : Char := Char.ofNat 125

/-- Models Go's `strings.SplitN(raw, sep, 2)`: `some (before, after)` when
`sep` occurs in `raw` (split at the first occurrence), `none` otherwise.
Go returns a one-element slice exactly in the `none` case. -/
def splitFirst (sep : List Char) : List Char → Option (List Char × List Char)
  | [] => if sep <+: ([] : List Char) then some ([], []) else none
  | c :: rest =>
    if sep <+: (c :: rest) then some ([], (c :: rest).drop sep.length)
    else (splitFirst sep rest).map (fun ba => (c :: ba.1, ba.2))

/-- Models `strings.Trim(s, " ")`: drop leading and trailing space characters. -/
def trimSpaces (s : List Char) : List Char :=
  ((s.dropWhile (fun c => c = ' ')).reverse.dropWhile (fun c => c = ' ')).reverse

/-- The `parser` struct of the tpl package: a start and an end delimiter. -/
structure parser where
  startDelim : List Char
  endDelim : List Char

/-- The error values of the tpl package: `ErrKeyNotFound` and `ErrTagNotClosed`. -/
inductive tplError where
  | keyNotFound (k : List Char)
  | tagNotClosed (delim : List Char)
deriving DecidableEq

/-- A template node: either a plain text value (`val`) or a `key` that is
replaced on inject. -/
inductive node where
  | val (v : List Char)
  | key (s : List Char)
deriving DecidableEq

/-- A replacement map, modelled as an association list with unique keys
(Go's `map[string]string`). -/
def RepMap : Type := List (List Char × List Char)

/-- Map lookup. -/
def lookupKV (m : RepMap) (k : List Char) : Option (List Char) :=
  match m with
  | [] => none
  | (k₁, v) :: rest => if k₁ = k then some v else lookupKV rest k

/-- `val.inject` and `key.inject` from template.go: a `val` emits its text, a
`key` emits the bound replacement or fails with `ErrKeyNotFound`. -/
def node.inject (m : RepMap) : node → Except tplError (List Char)
  | .val v => .ok v
  | .key s =>
    match lookupKV m s with
    | some data => .ok data
    | none => .error (.keyNotFound s)

/-- `template.Inject`: concatenate every node's emission in order, stopping at
the first failing node. -/
def Inject (m : RepMap) : List node → Except tplError (List Char)
  | [] => .ok []
  | n :: t =>
    match n.inject m with
    | .error e => .error e
    | .ok s =>
      match Inject m t with
      | .error e => .error e
      | .ok rest => .ok (s ++ rest)

/-- The key of a `key` node, if any. -/
def keyOf : node → Option (List Char)
  | .key s => some s
  | .val _ => none

/-- `template.Keys`: the de-duplicated keys of the template's `key` nodes
(template.go builds a set; the iteration order is unspecified). -/
def Keys (t : List node) : List (List Char) :=
  (t.filterMap keyOf).dedup

/-- Whether a node is a plain text value. -/
def isVal : node → Bool
  | .val _ => true
  | .key _ => false

/-- `parser.parse` from template.go, with an explicit fuel argument: split on
the first start delimiter; text before it becomes a `val` node (parsing
continues after it); otherwise the text up to the first end delimiter becomes
a `key` node (trimmed of spaces), failing with `ErrTagNotClosed` when the end
delimiter is missing. -/
def parse (p : parser) : Nat → List Char → Option (Except tplError (List node))
  | 0, _ => none
  | fuel+1, raw =>
    match splitFirst p.startDelim raw with
    | none =>
      if raw.isEmpty then some (Except.ok [])
      else some (Except.ok [node.val raw])
    | some (before, after) =>
      if before.isEmpty then
        match splitFirst p.endDelim after with
        | none => some (Except.error (tplError.tagNotClosed p.endDelim))
        | some (b₂, a₂) =>
          (parse p fuel a₂).map
            (Except.map (fun tail => node.key (trimSpaces b₂) :: tail))
      else
        (parse p fuel (p.startDelim ++ after)).map
          (Except.map (fun tail => node.val before :: tail))

/-- `parser.Parse`: run `parse` with enough fuel (one more than the input
length, which suffices whenever the start delimiter is non-empty). -/
def Parse (p : parser) (raw : List Char) : Option (Except tplError (List node)) :=
  parse p (raw.length + 1) raw

theorem splitFirst_eq_some {sep raw b a : List Char}
    (h : splitFirst sep raw = some (b, a)) : raw = b ++ (sep ++ a) := by
  induction raw generalizing b a with
  | nil =>
    by_cases hp : sep <+: ([] : List Char)
    · simp only [splitFirst, if_pos hp, Option.some.injEq, Prod.mk.injEq] at h
      obtain ⟨rfl, rfl⟩ := h
      have hs : sep = [] := List.prefix_nil.mp hp
      simp [hs]
    · simp [splitFirst, if_neg hp] at h
      obtain ⟨rfl, rfl, rfl⟩ := h
      rfl
  | cons c rest ih =>
    by_cases hp : sep <+: (c :: rest)
    · simp only [splitFirst, if_pos hp, Option.some.injEq, Prod.mk.injEq] at h
      obtain ⟨rfl, rfl⟩ := h
      obtain ⟨t, ht⟩ := hp
      rw [← ht, List.drop_left]
      simp
    · simp only [splitFirst, if_neg hp] at h
      cases hsf : splitFirst sep rest with
      | none => rw [hsf] at h; simp at h
      | some ba =>
        obtain ⟨b₁, a₁⟩ := ba
        rw [hsf] at h
        simp only [Option.map_some', Option.some.injEq, Prod.mk.injEq] at h
        obtain ⟨rfl, rfl⟩ := h
        simp [ih hsf]

theorem splitFirst_append_self (sep x : List Char) :
    splitFirst sep (sep ++ x) = some ([], x) := by
  cases hsx : sep ++ x with
  | nil =>
    rw [List.append_eq_nil] at hsx
    obtain ⟨rfl, rfl⟩ := hsx
    simp [splitFirst]
  | cons c rest =>
    have hpre : sep <+: (c :: rest) := hsx ▸ List.prefix_append sep x
    have hdrop : (c :: rest).drop sep.length = x := by
      rw [← hsx]; exact List.drop_left sep x
    rw [← hsx]
    conv_lhs => rw [hsx]
    rw [splitFirst, if_pos hpre, hdrop]

theorem splitFirst_nil {sep : List Char} (h : sep ≠ []) : splitFirst sep [] = none := by
  simp [splitFirst, List.prefix_nil, h]

theorem length_lt_of_splitFirst {sep raw b a : List Char}
    (h : splitFirst sep raw = some (b, a)) (hsep : sep ≠ []) :
    a.length < raw.length := by
  have hr := splitFirst_eq_some h
  have h1 : 1 ≤ sep.length := by
    cases hs : sep with
    | nil => exact absurd hs hsep
    | cons c rest => simp
  rw [hr]
  simp only [List.length_append]
  omega

theorem parse_isSome {p : parser} (hsd : p.startDelim ≠ []) :
    ∀ fuel raw, raw.length < fuel → (parse p fuel raw).isSome := by
  intro fuel
  induction fuel with
  | zero => intro raw h; exact absurd h (by omega)
  | succ fuel ih =>
    intro raw h
    rw [parse]
    cases hsf : splitFirst p.startDelim raw with
    | none =>
      by_cases hr : raw.isEmpty <;> simp [hr]
    | some ba =>
      obtain ⟨before, after⟩ := ba
      have hraw := splitFirst_eq_some hsf
      have hsd1 : 1 ≤ p.startDelim.length := by
        cases hs : p.startDelim with
        | nil => exact absurd hs hsd
        | cons c rest => simp
      have hlen : raw.length = before.length + p.startDelim.length + after.length := by
        rw [hraw]; simp only [List.length_append]; omega
      by_cases hb : before.isEmpty
      · simp only [hb, if_true]
        cases hse : splitFirst p.endDelim after with
        | none => simp
        | some ba₂ =>
          obtain ⟨b₂, a₂⟩ := ba₂
          have hafter := splitFirst_eq_some hse
          have hal : after.length = b₂.length + p.endDelim.length + a₂.length := by
            rw [hafter]; simp only [List.length_append]; omega
          have hb' : before = [] := by
            cases before with
            | nil => rfl
            | cons c rest => simp at hb
          have ha₂ : a₂.length < fuel := by
            rw [hb'] at hlen
            simp at hlen
            omega
          obtain ⟨r, hr⟩ := Option.isSome_iff_exists.mp (ih a₂ ha₂)
          simp [hr]
      · simp only [hb, if_false]
        have hbl : 1 ≤ before.length := by
          cases hbb : before with
          | nil => rw [hbb] at hb; simp at hb
          | cons c rest => simp
        have hx : (p.startDelim ++ after).length < fuel := by
          simp only [List.length_append]
          omega
        obtain ⟨r, hr⟩ := Option.isSome_iff_exists.mp (ih _ hx)
        rw [hr]
        simp

theorem parse_stable {p : parser} (hsd : p.startDelim ≠ []) :
    ∀ f₁ f₂ raw, raw.length < f₁ → raw.length < f₂ →
      parse p f₁ raw = parse p f₂ raw := by
  intro f₁
  induction f₁ with
  | zero => intro f₂ raw h₁ _; exact absurd h₁ (by omega)
  | succ f₁ ih =>
    intro f₂ raw h₁ h₂
    cases f₂ with
    | zero => exact absurd h₂ (by omega)
    | succ f₂ =>
      rw [parse, parse]
      cases hsf : splitFirst p.startDelim raw with
      | none => rfl
      | some ba =>
        obtain ⟨before, after⟩ := ba
        have hraw := splitFirst_eq_some hsf
        have hsd1 : 1 ≤ p.startDelim.length := by
          cases hs : p.startDelim with
          | nil => exact absurd hs hsd
          | cons c rest => simp
        have hlen : raw.length = before.length + p.startDelim.length + after.length := by
          rw [hraw]; simp only [List.length_append]; omega
        by_cases hb : before.isEmpty
        · simp only [hb, if_true]
          cases hse : splitFirst p.endDelim after with
          | none => rfl
          | some ba₂ =>
            obtain ⟨b₂, a₂⟩ := ba₂
            have hafter := splitFirst_eq_some hse
            have hal : after.length = b₂.length + p.endDelim.length + a₂.length := by
              rw [hafter]; simp only [List.length_append]; omega
            have hb' : before = [] := by
              cases before with
              | nil => rfl
              | cons c rest => simp at hb
            rw [hb'] at hlen
            simp at hlen
            have hrec := ih f₂ a₂ (by omega) (by omega)
            simp [hrec]
        · simp only [hb, if_false]
          have hbl : 1 ≤ before.length := by
            cases hbb : before with
            | nil => rw [hbb] at hb; simp at hb
            | cons c rest => simp
          have hrec := ih f₂ (p.startDelim ++ after)
            (by simp only [List.length_append]; omega)
            (by simp only [List.length_append]; omega)
          simp [hrec]

theorem Parse_no_start {p : parser} {raw : List Char}
    (h : splitFirst p.startDelim raw = none) :
    Parse p raw = some (Except.ok (if raw.isEmpty then [] else [node.val raw])) := by
  by_cases hr : raw.isEmpty <;> simp [Parse, parse, h, hr]

theorem Parse_tag_not_closed {p : parser} {raw a : List Char}
    (h₁ : splitFirst p.startDelim raw = some ([], a))
    (h₂ : splitFirst p.endDelim a = none) :
    Parse p raw = some (Except.error (tplError.tagNotClosed p.endDelim)) := by
  simp [Parse, parse, h₁, h₂]

theorem Parse_val_step {p : parser} {raw b a : List Char} (hsd : p.startDelim ≠ [])
    (h : splitFirst p.startDelim raw = some (b, a)) (hb : b ≠ []) :
    Parse p raw =
      Option.map (Except.map (fun tail => node.val b :: tail))
        (Parse p (p.startDelim ++ a)) := by
  have hraw := splitFirst_eq_some h
  have hbl : 1 ≤ b.length := by
    cases b with
    | nil => exact absurd rfl hb
    | cons c r => simp
  have hlt : (p.startDelim ++ a).length < raw.length := by
    rw [hraw]; simp only [List.length_append]; omega
  have hstab : parse p raw.length (p.startDelim ++ a) =
      parse p ((p.startDelim ++ a).length + 1) (p.startDelim ++ a) :=
    parse_stable hsd _ _ _ hlt (Nat.lt_succ_self _)
  have hbe : b.isEmpty = false := by
    cases b with
    | nil => exact absurd rfl hb
    | cons c r => rfl
  simp [Parse, parse, h, hbe, hstab]

theorem Parse_key_step {p : parser} {raw a b₂ a₂ : List Char} (hsd : p.startDelim ≠ [])
    (h₁ : splitFirst p.startDelim raw = some ([], a))
    (h₂ : splitFirst p.endDelim a = some (b₂, a₂)) :
    Parse p raw =
      Option.map (Except.map (fun tail => node.key (trimSpaces b₂) :: tail))
        (Parse p a₂) := by
  have hraw := splitFirst_eq_some h₁
  have h1 : 1 ≤ p.startDelim.length := by
    cases hs : p.startDelim with
    | nil => exact absurd hs hsd
    | cons c r => simp
  have ha := splitFirst_eq_some h₂
  have hlt : a₂.length < raw.length := by
    rw [hraw, ha]; simp only [List.length_append]; omega
  have hstab : parse p raw.length a₂ = parse p (a₂.length + 1) a₂ :=
    parse_stable hsd _ _ _ hlt (Nat.lt_succ_self _)
  simp [Parse, parse, h₁, h₂, hstab]

/-- The key of the first `key` node whose key has no binding in `m`
(in node order), if any. -/
def firstMissingKey (m : RepMap) : List node → Option (List Char)
  | [] => none
  | node.val _ :: t => firstMissingKey m t
  | node.key s :: t =>
    if (lookupKV m s).isSome then firstMissingKey m t else some s

/-- The in-order concatenation of each node's emission: a `val` node emits its
text verbatim, a `key` node emits the value bound to its key. -/
def emitAll (m : RepMap) : List node → List Char
  | [] => []
  | node.val v :: t => v ++ emitAll m t
  | node.key s :: t => (lookupKV m s).getD [] ++ emitAll m t

/-- **C1.** For every template `t` and every replacement map `m`: if some
`key` node of `t` has a key absent from `m`, then `Inject` fails with the
key-not-found error identifying the key of the first (in node order) such
node and returns no string; if every `key` node's key is present, `Inject`
succeeds and returns the in-order concatenation of each node's emission
(`val` text verbatim, `key` replaced by its bound value).  The second
conjunct identifies "no missing key" with "every key of a `key` node of `t`
is bound in `m`". -/
theorem C1_inject_first_missing_key (m : RepMap) (t : List node) :
    (Inject m t = match firstMissingKey m t with
      | some k => Except.error (tplError.keyNotFound k)
      | none => Except.ok (emitAll m t)) ∧
    (firstMissingKey m t = none ↔ ∀ s, node.key s ∈ t → (lookupKV m s).isSome) := by
  induction t with
  | nil => exact ⟨rfl, by simp [firstMissingKey]⟩
  | cons n t ih =>
    obtain ⟨ih1, ih2⟩ := ih
    cases n with
    | val v =>
      constructor
      · simp only [Inject, node.inject, firstMissingKey, emitAll]
        cases hf : firstMissingKey m t with
        | none => rw [hf] at ih1; simp [ih1]
        | some k => rw [hf] at ih1; simp [ih1]
      · simp only [firstMissingKey]
        rw [ih2]
        constructor
        · intro hall s hs
          apply hall
          simp at hs
          simpa using hs
        · intro hall s hs
          exact hall s (by simp [hs])
    | key s =>
      cases hl : lookupKV m s with
      | some d =>
        constructor
        · simp only [Inject, node.inject, hl, firstMissingKey]
          simp only [hl, Option.isSome_some, if_true]
          cases hf : firstMissingKey m t with
          | none => rw [hf] at ih1; simp [ih1, emitAll, hl]
          | some k => rw [hf] at ih1; simp [ih1]
        · simp only [firstMissingKey, hl, Option.isSome_some, if_true]
          rw [ih2]
          constructor
          · intro hall s₁ hs₁
            simp at hs₁
            rcases hs₁ with hs₁ | hs₁
            · rw [hs₁, hl]; rfl
            · exact hall s₁ hs₁
          · intro hall s₁ hs₁
            exact hall s₁ (by simp [hs₁])
      | none =>
        constructor
        · simp only [Inject, node.inject, hl, firstMissingKey]
          simp [hl]
        · simp only [firstMissingKey, hl]
          simp only [Option.isSome_none, Bool.false_eq_true, if_false]
          constructor
          · intro hc; exact absurd hc (by simp)
          · intro hall
            have := hall s (by simp)
            rw [hl] at this
            simp at this

/-- **C3.** For every successfully parsed template `t`, `Keys t` is exactly
the set of distinct keys of the `key` nodes of `t`: a key is in the result
iff some `key` node of `t` carries it, and the result has no duplicates
(order is unspecified). -/
theorem C3_keys_exact (p : parser) (raw : List Char) (t : List node)
    (h : Parse p raw = some (Except.ok t)) :
    (∀ k, k ∈ Keys t ↔ node.key k ∈ t) ∧ (Keys t).Nodup := by
  refine ⟨fun k => ?_, List.nodup_dedup _⟩
  unfold Keys
  rw [List.mem_dedup, List.mem_filterMap]
  constructor
  · rintro ⟨n, hn, hkn⟩
    cases n with
    | val v => simp [keyOf] at hkn
    | key s =>
      simp only [keyOf, Option.some.injEq] at hkn
      exact hkn ▸ hn
  · intro hk
    exact ⟨node.key k, hk, rfl⟩

/-- Closed witness for C3 on the template parsed from `"x{{a}}"`. -/
theorem C3_keys_exact_witness :
    (∀ k, k ∈ Keys [node.val ['x'], node.key ['a']] ↔
        node.key k ∈ [node.val ['x'], node.key ['a']]) ∧
    (Keys [node.val ['x'], node.key ['a']]).Nodup :=
  C3_keys_exact ⟨[lbrace, lbrace], [rbrace, rbrace]⟩
    ('x' :: (lbrace :: (lbrace :: ('a' :: (rbrace :: [rbrace])))))
    [node.val ['x'], node.key ['a']] rfl


theorem parse_ok_all_val_inject {p : parser} (m : RepMap) :
    ∀ fuel raw t, parse p fuel raw = some (Except.ok t) → t.all isVal = true →
      Inject m t = Except.ok raw := by
  intro fuel
  induction fuel with
  | zero => intro raw t h _; simp [parse] at h
  | succ fuel ih =>
    intro raw t h hv
    rw [parse] at h
    cases hsf : splitFirst p.startDelim raw with
    | none =>
      rw [hsf] at h
      simp only [] at h
      by_cases hr : raw.isEmpty
      · have hraw : raw = [] := by
          cases raw with
          | nil => rfl
          | cons c rest => simp at hr
        rw [if_pos hr] at h
        simp only [Option.some.injEq, Except.ok.injEq] at h
        rw [← h, hraw]
        rfl
      · rw [if_neg hr] at h
        simp only [Option.some.injEq, Except.ok.injEq] at h
        rw [← h]
        simp [Inject, node.inject]
    | some ba =>
      obtain ⟨before, after⟩ := ba
      rw [hsf] at h
      simp only [] at h
      have hraw := splitFirst_eq_some hsf
      by_cases hb : before.isEmpty
      · rw [if_pos hb] at h
        cases hse : splitFirst p.endDelim after with
        | none =>
          rw [hse] at h
          simp at h
        | some ba₂ =>
          obtain ⟨b₂, a₂⟩ := ba₂
          rw [hse] at h
          simp only [] at h
          cases hrec : parse p fuel a₂ with
          | none =>
            rw [hrec] at h
            simp at h
          | some r =>
            rw [hrec] at h
            cases r with
            | error e => simp [Except.map] at h
            | ok tail =>
              simp only [Option.map_some', Except.map, Option.some.injEq,
                Except.ok.injEq] at h
              rw [← h] at hv
              simp [List.all_cons, isVal] at hv
      · rw [if_neg hb] at h
        cases hrec : parse p fuel (p.startDelim ++ after) with
        | none =>
          rw [hrec] at h
          simp at h
        | some r =>
          rw [hrec] at h
          cases r with
          | error e => simp [Except.map] at h
          | ok tail =>
            simp only [Option.map_some', Except.map, Option.some.injEq,
              Except.ok.injEq] at h
            rw [← h] at hv
            simp only [List.all_cons, isVal, Bool.true_and] at hv
            have htail := ih (p.startDelim ++ after) tail hrec hv
            rw [← h]
            simp only [Inject, node.inject, htail]
            rw [hraw]

/-- **C4.** For every raw string whose parse yields a template with no `key`
nodes (in particular any raw not containing the start delimiter), and for
every replacement map `m`, `Inject` succeeds and returns the original raw
text unchanged. -/
theorem C4_no_placeholder_round_trip (p : parser) (raw : List Char)
    (t : List node) (m : RepMap)
    (h : Parse p raw = some (Except.ok t)) (hv : t.all isVal = true) :
    Inject m t = Except.ok raw :=
  parse_ok_all_val_inject m (raw.length + 1) raw t h hv

/-- Closed witness for C4: `"hello"` parses to a single literal node and
injects back to itself under an arbitrary concrete map. -/
theorem C4_no_placeholder_round_trip_witness :
    Inject [(['k'], ['v'])] [node.val "hello".toList] = Except.ok "hello".toList :=
  C4_no_placeholder_round_trip ⟨[lbrace, lbrace], [rbrace, rbrace]⟩
    "hello".toList [node.val "hello".toList] [(['k'], ['v'])] rfl rfl

/-- **C9.** Under the precondition that both delimiters are non-empty, the
recursive parse helper terminates on every input: with fuel one more than the
input length (each recursive call is on a strictly shorter string) `parse`
never runs out of fuel, so `Parse` is a total function of its input. -/
theorem C9_parse_total (p : parser) (raw : List Char)
    (hsd : p.startDelim ≠ []) (hed : p.endDelim ≠ []) :
    (Parse p raw).isSome :=
  parse_isSome hsd (raw.length + 1) raw (Nat.lt_succ_self _)

/-- Closed witness for C9. -/
theorem C9_parse_total_witness :
    (Parse ⟨[lbrace, lbrace], [rbrace, rbrace]⟩
      ('a' :: (lbrace :: (lbrace :: ['b'])))).isSome :=
  C9_parse_total ⟨[lbrace, lbrace], [rbrace, rbrace]⟩
    ('a' :: (lbrace :: (lbrace :: ['b']))) (by decide) (by decide)

/-- Spec-level predicate, following the spec's words: the raw string contains
an occurrence of the start delimiter, outside any already-closed placeholder,
that is not followed by a later occurrence of the end delimiter.  (Scanning
left to right: find the next start delimiter; if no end delimiter follows it,
the placeholder is unterminated; otherwise skip past the closing end delimiter
and continue.)  The fuel argument bounds the scan. -/
def specUnterminated (sd ed : List Char) : Nat → List Char → Bool
  | 0, _ => false
  | fuel+1, raw =>
    match splitFirst sd raw with
    | none => false
    | some (_, after) =>
      match splitFirst ed after with
      | none => true
      | some (_, a₂) => specUnterminated sd ed fuel a₂

theorem C2_aux {p : parser} (hsd : p.startDelim ≠ []) :
    ∀ fuel raw, specUnterminated p.startDelim p.endDelim fuel raw = true →
      Parse p raw = some (Except.error (tplError.tagNotClosed p.endDelim)) := by
  intro fuel
  induction fuel with
  | zero => intro raw h; simp [specUnterminated] at h
  | succ fuel ih =>
    intro raw h
    rw [specUnterminated] at h
    cases hsf : splitFirst p.startDelim raw with
    | none => rw [hsf] at h; simp at h
    | some ba =>
      obtain ⟨b, after⟩ := ba
      rw [hsf] at h
      simp only [] at h
      cases hse : splitFirst p.endDelim after with
      | none =>
        by_cases hb : b = []
        · rw [hb] at hsf
          exact Parse_tag_not_closed hsf hse
        · rw [Parse_val_step hsd hsf hb]
          rw [Parse_tag_not_closed (splitFirst_append_self p.startDelim after) hse]
          rfl
      | some ba₂ =>
        obtain ⟨b₂, a₂⟩ := ba₂
        rw [hse] at h
        simp only [] at h
        have hrec := ih a₂ h
        by_cases hb : b = []
        · rw [hb] at hsf
          rw [Parse_key_step hsd hsf hse, hrec]
          rfl
        · rw [Parse_val_step hsd hsf hb]
          rw [Parse_key_step hsd (splitFirst_append_self p.startDelim after) hse, hrec]
          rfl

/-- **C2.** For every delimiter pair (non-empty, so parsing terminates) and
every raw string in which an occurrence of the start delimiter outside any
already-closed placeholder is not followed by a later occurrence of the end
delimiter, `Parse` fails with the tag-not-closed ("unterminated placeholder")
error carrying the expected end delimiter, and returns no template. -/
theorem C2_unterminated_placeholder (p : parser) (fuel : Nat) (raw : List Char)
    (hsd : p.startDelim ≠ []) (hed : p.endDelim ≠ [])
    (h : specUnterminated p.startDelim p.endDelim fuel raw = true) :
    Parse p raw = some (Except.error (tplError.tagNotClosed p.endDelim)) :=
  C2_aux hsd fuel raw h

/-- Closed witness for C2 on the input `"x{{abc"`. -/
theorem C2_unterminated_placeholder_witness :
    Parse ⟨[lbrace, lbrace], [rbrace, rbrace]⟩
        ('x' :: (lbrace :: (lbrace :: "abc".toList))) =
      some (Except.error (tplError.tagNotClosed [rbrace, rbrace])) :=
  C2_unterminated_placeholder ⟨[lbrace, lbrace], [rbrace, rbrace]⟩ 7
    ('x' :: (lbrace :: (lbrace :: "abc".toList)))
    (by decide) (by decide) (by decide)

/-- **C5.** No nesting: when a placeholder is opened and a second occurrence
of the start delimiter appears inside it, before the first following end
delimiter (`hfirst` pins the given end delimiter as the first one after the
opening; `hnest` states the second start delimiter inside the key span), the
parser does not open a nested placeholder: the whole span between the opening
start delimiter and that end delimiter - the second start delimiter's text
included verbatim - becomes the placeholder key, after trimming leading and
trailing plain spaces, and parsing continues after the end delimiter. -/
theorem C5_no_nesting (sd ed body rest : List Char)
    (hsd : sd ≠ [])
    (hnest : List.IsInfix sd body)
    (hfirst : splitFirst ed (body ++ (ed ++ rest)) = some (body, rest)) :
    Parse ⟨sd, ed⟩ (sd ++ (body ++ (ed ++ rest))) =
      Option.map (Except.map (fun tail => node.key (trimSpaces body) :: tail))
        (Parse ⟨sd, ed⟩ rest) :=
  Parse_key_step hsd (splitFirst_append_self sd (body ++ (ed ++ rest))) hfirst

/-- Closed witness for C5 on the input `"{{a{{b}}"` (key `"a{{b"`). -/
theorem C5_no_nesting_witness :
    Parse ⟨[lbrace, lbrace], [rbrace, rbrace]⟩
        ([lbrace, lbrace] ++ (['a', lbrace, lbrace, 'b'] ++ ([rbrace, rbrace] ++ []))) =
      Option.map
        (Except.map (fun tail => node.key (trimSpaces ['a', lbrace, lbrace, 'b']) :: tail))
        (Parse ⟨[lbrace, lbrace], [rbrace, rbrace]⟩ []) :=
  C5_no_nesting [lbrace, lbrace] [rbrace, rbrace] ['a', lbrace, lbrace, 'b'] []
    (by decide) ⟨['a'], ['b'], rfl⟩ (by decide)

theorem trimSpaces_all_spaces {mid : List Char} (h : ∀ c ∈ mid, c = ' ') :
    trimSpaces mid = [] := by
  unfold trimSpaces
  have h1 : mid.dropWhile (fun c => c = ' ') = [] := by
    rw [List.dropWhile_eq_nil_iff]
    intro x hx
    simp [h x hx]
  rw [h1]
  rfl

/-- **C10.** For every non-empty delimiter pair, an input consisting of a
start delimiter followed - immediately or separated only by spaces - by an
end delimiter parses successfully into a template containing a single
placeholder node whose key is the empty string; `Inject` on that template
then fails with key-not-found for the empty-string key unless the replacement
map contains a binding for it, in which case it succeeds with that value. -/
theorem C10_empty_key (sd ed mid : List Char) (m : RepMap)
    (hsd : sd ≠ []) (hed : ed ≠ [])
    (hmid : ∀ c ∈ mid, c = ' ')
    (hfirst : splitFirst ed (mid ++ ed) = some (mid, [])) :
    Parse ⟨sd, ed⟩ (sd ++ (mid ++ ed)) = some (Except.ok [node.key []]) ∧
    (lookupKV m [] = none →
      Inject m [node.key []] = Except.error (tplError.keyNotFound [])) ∧
    (∀ v, lookupKV m [] = some v → Inject m [node.key []] = Except.ok v) := by
  refine ⟨?_, ?_, ?_⟩
  · rw [Parse_key_step hsd (splitFirst_append_self sd (mid ++ ed)) hfirst]
    rw [trimSpaces_all_spaces hmid]
    rw [Parse_no_start (splitFirst_nil hsd)]
    rfl
  · intro hl
    simp [Inject, node.inject, hl]
  · intro v hl
    simp [Inject, node.inject, hl]

/-- Closed witness for C10 on the input `"{{   }}"` with the empty map. -/
theorem C10_empty_key_witness :
    Parse ⟨[lbrace, lbrace], [rbrace, rbrace]⟩
        ([lbrace, lbrace] ++ ([' ', ' ', ' '] ++ [rbrace, rbrace])) =
      some (Except.ok [node.key []]) ∧
    (lookupKV [] [] = none →
      Inject [] [node.key []] = Except.error (tplError.keyNotFound [])) ∧
    (∀ v, lookupKV [] [] = some v → Inject [] [node.key []] = Except.ok v) :=
  C10_empty_key [lbrace, lbrace] [rbrace, rbrace] [' ', ' ', ' '] []
    (by decide) (by decide) (by decide) (by decide)

/-- Modelled from the spec: the Value Normalizer `trimQuotes` of run.go, whose
source is not under src/ (only its tests are).  Given a raw string, if it is
at least 2 characters and starts with a single quote and ends with a single
quote, strip exactly the outermost matching pair and return the interior
unchanged; same rule for double quotes; otherwise return the string
unchanged (only the outermost layer is stripped, never recursing). -/
def trimQuotes (s : List Char) : List Char :=
  if 2 ≤ s.length ∧
      ((s.head? = some squote ∧ s.getLast? = some squote) ∨
       (s.head? = some dquote ∧ s.getLast? = some dquote))
  then s.tail.dropLast
  else s

/-- The whitespace characters trimmed around keys and values of the line
dialect (spaces and tabs). -/
def isWS (c : Char) : Bool := c = ' ' || c = Char.ofNat 9

/-- Trim surrounding whitespace (spaces and tabs). -/
def trimWS (s : List Char) : List Char :=
  ((s.dropWhile isWS).reverse.dropWhile isWS).reverse

/-- Split a character list at every occurrence of a character (the lines of a
document, for the newline character). -/
def splitOnChar (c : Char) : List Char → List (List Char)
  | [] => [[]]
  | x :: rest =>
    match splitOnChar c rest with
    | [] => if x = c then [[], []] else [[x]]
    | h :: t => if x = c then [] :: (h :: t) else (x :: h) :: t

/-- Whether a line of the line dialect is skipped: blank (empty or only
whitespace) or a comment (first character after leading whitespace is `#`). -/
def skipLine (line : List Char) : Bool :=
  (line.dropWhile isWS).isEmpty || (line.dropWhile isWS).head? = some (Char.ofNat 35)

/-- The errors of the run/env logic: `ErrTemplate(lineNumber, ...)` ("template
is not formatted as key=value pairs") and `ErrInvalidTemplateVar(name)`. -/
inductive runError where
  | template (line : Int)
  | invalidTemplateVar (name : List Char)
deriving DecidableEq

/-- One declared entry of the source document: key, value and 1-based line
number (-1 when the dialect does not preserve line positions). -/
structure envvar where
  key : List Char
  value : List Char
  lineNumber : Int
deriving DecidableEq

/-- Modelled from the spec: the per-line loop of `parseEnv` (run.go, not under
src/).  A blank or comment line is skipped (its number still counts); any
other line must contain at least one `=` and is split on the first `=`: the
key is the text before it trimmed of whitespace, the value the text after it
trimmed of whitespace and then quote-normalized; a non-blank non-comment line
with no `=` fails the whole parse with the line-tagged template error. -/
def parseEnvLines (i : Int) : List (List Char) → Except runError (List envvar)
  | [] => .ok []
  | line :: rest =>
    if skipLine line then parseEnvLines (i + 1) rest
    else
      match splitFirst ['='] line with
      | none => .error (.template i)
      | some (before, after) =>
        match parseEnvLines (i + 1) rest with
        | .error e => .error e
        | .ok tail => .ok (⟨trimWS before, trimQuotes (trimWS after), i⟩ :: tail)

/-- Modelled from the spec: `parseEnv` (run.go, not under src/): split the raw
document into lines and parse them with 1-based line numbers. -/
def parseEnv (raw : List Char) : Except runError (List envvar) :=
  parseEnvLines 1 (splitOnChar (Char.ofNat 10) raw)

/-- Whether a string matches the identifier pattern of template-variable
names (a letter or underscore, then letters, digits or underscores). -/
def validIdent (s : List Char) : Bool :=
  match s with
  | [] => false
  | c :: rest => (c.isAlpha || c = '_') && rest.all (fun d => d.isAlphanum || d = '_')

/-- The first key of the template-variable map that is not a valid
identifier, if any. -/
def firstInvalidVar : List (List Char × List Char) → Option (List Char)
  | [] => none
  | (k, _) :: rest => if validIdent k then firstInvalidVar rest else some k

/-- Modelled from the spec: steps 1-3 of environment construction (`NewEnv`
of run.go, not under src/): first validate every template-variable name
against the identifier pattern, failing with the invalid-template-variable-
name error naming the first offending key before any parsing of `raw`; only
then parse `raw` (line dialect shown; the later template-compilation steps
are not needed for the claims below). -/
def NewEnv (raw : List Char) (tvars : List (List Char × List Char)) :
    Except runError (List envvar) :=
  match firstInvalidVar tvars with
  | some k => .error (.invalidTemplateVar k)
  | none => parseEnv raw

/-- **C6.** For every string: if it has length at least 2 and both starts and
ends with a single quote, or both starts and ends with a double quote - that
is, it decomposes as `q :: (w ++ [q])` for a quote character `q` - then
`trimQuotes` removes exactly that outermost pair and leaves the interior `w`
unchanged (interior whitespace and interior quotes of either kind preserved,
no recursion); in every other case `trimQuotes` returns the string
unchanged. -/
theorem C6_trim_quotes :
    (∀ (q : Char) (w : List Char), (q = squote ∨ q = dquote) →
        trimQuotes (q :: (w ++ [q])) = w) ∧
    (∀ s : List Char,
        (¬ ∃ q w, (q = squote ∨ q = dquote) ∧ s = q :: (w ++ [q])) →
        trimQuotes s = s) := by
  constructor
  · intro q w hq
    have hc : 2 ≤ (q :: (w ++ [q])).length ∧
        (((q :: (w ++ [q])).head? = some squote ∧
          (q :: (w ++ [q])).getLast? = some squote) ∨
         ((q :: (w ++ [q])).head? = some dquote ∧
          (q :: (w ++ [q])).getLast? = some dquote)) := by
      constructor
      · simp
      · have hh : (q :: (w ++ [q])).head? = some q := rfl
        have hl : (q :: (w ++ [q])).getLast? = some q := by
          rw [← List.cons_append]
          exact List.getLast?_concat _
        rcases hq with rfl | rfl
        · exact Or.inl ⟨hh, hl⟩
        · exact Or.inr ⟨hh, hl⟩
    rw [trimQuotes, if_pos hc]
    simp
  · intro s hno
    by_cases hc : 2 ≤ s.length ∧
        ((s.head? = some squote ∧ s.getLast? = some squote) ∨
         (s.head? = some dquote ∧ s.getLast? = some dquote))
    · exfalso
      apply hno
      obtain ⟨hlen, hq⟩ := hc
      cases s with
      | nil => simp at hlen
      | cons a t =>
        have ht : t ≠ [] := by
          intro hte
          rw [hte] at hlen
          simp at hlen
        rcases hq with ⟨hh, hl⟩ | ⟨hh, hl⟩
        · have ha : a = squote := by simpa using hh
          have hgl : t.getLast ht = squote := by
            rw [List.getLast?_eq_getLast_of_ne_nil (by simp)] at hl
            have h2 : (a :: t).getLast (by simp) = squote := by
              exact Option.some.inj hl
            rw [List.getLast_cons ht] at h2
            exact h2
          refine ⟨squote, t.dropLast, Or.inl rfl, ?_⟩
          rw [ha]
          congr 1
          rw [← hgl]
          exact (List.dropLast_append_getLast ht).symm
        · have ha : a = dquote := by simpa using hh
          have hgl : t.getLast ht = dquote := by
            rw [List.getLast?_eq_getLast_of_ne_nil (by simp)] at hl
            have h2 : (a :: t).getLast (by simp) = dquote := by
              exact Option.some.inj hl
            rw [List.getLast_cons ht] at h2
            exact h2
          refine ⟨dquote, t.dropLast, Or.inr rfl, ?_⟩
          rw [ha]
          congr 1
          rw [← hgl]
          exact (List.dropLast_append_getLast ht).symm
    · rw [trimQuotes, if_neg hc]

/-- Closed witness for C6: a single-quoted string is stripped once, an
unquoted string is unchanged. -/
theorem C6_trim_quotes_witness :
    trimQuotes (squote :: ("foo".toList ++ [squote])) = "foo".toList ∧
    trimQuotes "foo".toList = "foo".toList := by
  constructor
  · exact C6_trim_quotes.1 squote "foo".toList (Or.inl rfl)
  · apply C6_trim_quotes.2
    rintro ⟨q, w, hq, hs⟩
    have hq' : q = 'f' := by
      have h1 := congrArg List.head? hs
      simp at h1
      exact h1.symm
    rcases hq with rfl | rfl
    · exact absurd hq' (by decide)
    · exact absurd hq' (by decide)

theorem splitFirst_singleton_not_mem {c : Char} {before after : List Char}
    (h : c ∉ before) :
    splitFirst [c] (before ++ c :: after) = some (before, after) := by
  induction before with
  | nil =>
    have hp : [c] <+: (c :: after) := ⟨after, rfl⟩
    rw [List.nil_append, splitFirst, if_pos hp]
    simp
  | cons b bs ih =>
    have hcb : ¬ c = b := fun hh => h (by rw [hh]; exact List.mem_cons_self b bs)
    have hnp : ¬ ([c] <+: (b :: (bs ++ c :: after))) := by
      rintro ⟨t, ht⟩
      injection ht with h1 h2
      exact hcb h1
    rw [List.cons_append, splitFirst, if_neg hnp]
    rw [ih (fun hm => h (List.mem_cons_of_mem b hm))]
    rfl

/-- **C7.** In the line dialect every non-blank non-comment line containing
at least one `=` is split on the first `=` only: writing the line as
`before ++ '=' :: after` with no `=` in `before`, the entry's key is `before`
trimmed of surrounding whitespace and its value is `after` trimmed and then
quote-normalized - so later `=` characters remain part of the value; in
particular `parseEnv "foo=foo=bar"` yields exactly one entry with key `foo`
and value `foo=bar`. -/
theorem C7_first_equals_wins :
    (∀ (i : Int) (before after : List Char) (rest : List (List Char)),
        '=' ∉ before →
        skipLine (before ++ '=' :: after) = false →
        parseEnvLines i ((before ++ '=' :: after) :: rest) =
          Except.map
            (fun tail => ⟨trimWS before, trimQuotes (trimWS after), i⟩ :: tail)
            (parseEnvLines (i + 1) rest)) ∧
    parseEnv "foo=foo=bar".toList =
      Except.ok [⟨"foo".toList, "foo=bar".toList, 1⟩] := by
  constructor
  · intro i before after rest hne hskip
    have hsf : splitFirst ['='] (before ++ '=' :: after) = some (before, after) :=
      splitFirst_singleton_not_mem hne
    rw [parseEnvLines, if_neg (by simp [hskip]), hsf]
    cases hrec : parseEnvLines (i + 1) rest with
    | error e => simp [Except.map]
    | ok tail => simp [Except.map]
  · rfl

/-- Closed witness for C7's split rule at the line `"foo=foo=bar"`. -/
theorem C7_first_equals_wins_witness :
    parseEnvLines 1 (("foo".toList ++ '=' :: "foo=bar".toList) :: []) =
      Except.map
        (fun tail =>
          ⟨trimWS "foo".toList, trimQuotes (trimWS "foo=bar".toList), 1⟩ :: tail)
        (parseEnvLines (1 + 1) []) :=
  C7_first_equals_wins.1 1 "foo".toList "foo=bar".toList [] (by decide) (by decide)

/-- **C8.** For every template-variable map containing at least one key that
does not match the identifier pattern, environment construction fails with
the invalid-template-variable-name error naming an offending key of the map
(the first one, as returned by `firstInvalidVar`), and it does so for every
raw source document whatsoever - in particular before any parsing of the raw
document takes place. -/
theorem C8_invalid_template_var (tvars : List (List Char × List Char))
    (h : ∃ kv, kv ∈ tvars ∧ validIdent kv.1 = false) :
    ∃ k, firstInvalidVar tvars = some k ∧ validIdent k = false ∧
      (∃ v, (k, v) ∈ tvars) ∧
      ∀ raw, NewEnv raw tvars = Except.error (runError.invalidTemplateVar k) := by
  induction tvars with
  | nil =>
    obtain ⟨kv, hm, _⟩ := h
    simp at hm
  | cons kv rest ih =>
    obtain ⟨k₀, v₀⟩ := kv
    by_cases hv : validIdent k₀
    · have h' : ∃ kv, kv ∈ rest ∧ validIdent kv.1 = false := by
        obtain ⟨kv, hm, hkv⟩ := h
        rcases List.mem_cons.mp hm with rfl | hm'
        · rw [hv] at hkv
          simp at hkv
        · exact ⟨kv, hm', hkv⟩
      obtain ⟨k, hf, hvk, ⟨v, hmem⟩, _⟩ := ih h'
      have hfi : firstInvalidVar ((k₀, v₀) :: rest) = some k := by
        rw [firstInvalidVar, if_pos hv]
        exact hf
      refine ⟨k, hfi, hvk, ⟨v, List.mem_cons_of_mem _ hmem⟩, ?_⟩
      intro raw
      rw [NewEnv, hfi]
    · have hv' : validIdent k₀ = false := by simpa using hv
      have hfi : firstInvalidVar ((k₀, v₀) :: rest) = some k₀ := by
        rw [firstInvalidVar, if_neg hv]
      refine ⟨k₀, hfi, hv', ⟨v₀, List.mem_cons_self _ _⟩, ?_⟩
      intro raw
      rw [NewEnv, hfi]

/-- Closed witness for C8 at the test's template-variable map `{"0foo": "value"}`. -/
theorem C8_invalid_template_var_witness :
    ∃ k, firstInvalidVar [("0foo".toList, "value".toList)] = some k ∧
      validIdent k = false ∧
      (∃ v, (k, v) ∈ [("0foo".toList, "value".toList)]) ∧
      ∀ raw, NewEnv raw [("0foo".toList, "value".toList)] =
        Except.error (runError.invalidTemplateVar k) :=
  C8_invalid_template_var [("0foo".toList, "value".toList)]
    ⟨("0foo".toList, "value".toList), by decide⟩
